import Mathlib

/-!
Verification of the `markov-chainer` library (files `src/lib/chain.js` and
`src/lib/util.js`) against its specification.

The JavaScript source is shallowly embedded:

* user-supplied tokens are JSON-like primitive values (`JSVal`): strings,
  (integer) numbers, booleans and `null`;
* the chain additionally manipulates the two sentinel `Symbol` tokens
  `BEGIN` and `END`, and the JavaScript value `undefined` shows up as the
  result of out-of-range array indexing, so internal token positions use the
  sum type `Token`;
* JavaScript `Map`s (whose iteration order is insertion order, and whose keys
  here are interned `immutable-tuple` values, so that `===` on keys is
  structural equality) become insertion-ordered association lists with the
  `mget`/`mset` operations below;
* `Math.random()` draws become explicit rational parameters `ρ` with
  `0 ≤ ρ < 1`, and the generator `_walk` (which may not terminate on cyclic
  chains) is given an explicit fuel parameter.
-/

/-- A primitive JSON value, the universe of user-supplied corpus tokens. -/
inductive JSVal where
  | str : String → JSVal
  | num : Int → JSVal
  | bool : Bool → JSVal
  | null : JSVal
deriving DecidableEq

/-- JavaScript falsiness of a primitive value (`0`, the empty string,
`false` and `null` are falsy). -/
def JSVal.falsy : JSVal → Bool
  | .str s => s = ""
  | .num n => n = 0
  | .bool b => !b
  | .null => true

/-- A token as it occurs inside the chain: one of the two sentinel symbols
`BEGIN` / `END` (called `begin` / `stop` here), the JavaScript value
`undefined` (produced by out-of-range array indexing), or a user value. -/
inductive Token where
  | begin : Token
  | stop : Token
  | undef : Token
  | val : JSVal → Token
deriving DecidableEq

/-- JavaScript falsiness of a token: the sentinels are `Symbol`s, which are
truthy; `undefined` is falsy. -/
def Token.falsy : Token → Bool
  | .begin => false
  | .stop => false
  | .undef => true
  | .val v => v.falsy

/-- A state of the chain: the contents of an `immutable-tuple` of tokens.
`immutable-tuple` interns tuples, so JavaScript `===` (and `Map` keying) on
tuples coincides with elementwise structural equality, which is definitional
equality of these lists. -/
abbrev State := List Token

/-- A weighted transition table: a JavaScript `Map` from token to count,
as an insertion-ordered association list. -/
abbrev Table := List (Token × Nat)

/-- The state space: a JavaScript `Map` from state to the pair
`[nextTable, prevTable]`. -/
abbrev Model := List (State × (Table × Table))

/-- The token map: a JavaScript `Map` from token to the `Set` of states
containing it (the set is kept as an insertion-ordered list). -/
abbrev TokenMap := List (Token × List State)

section AssocMap

variable {κ ν : Type} [DecidableEq κ]

/-- `Map.prototype.get`: the value stored at the first (and only) matching
key, if any. -/
def mget : List (κ × ν) → κ → Option ν
  | [], _ => none
  | p :: rest, k => if p.1 = k then some p.2 else mget rest k

/-- `Map.prototype.set`: update the value in place when the key is present,
otherwise append the new entry at the end (JavaScript `Map`s iterate in
insertion order). -/
def mset : List (κ × ν) → κ → ν → List (κ × ν)
  | [], k, v => [(k, v)]
  | p :: rest, k, v => if p.1 = k then (k, v) :: rest else p :: mset rest k v

theorem mget_mset_self (m : List (κ × ν)) (k : κ) (v : ν) :
    mget (mset m k v) k = some v := by
  induction m with
  | nil => simp [mget, mset]
  | cons p rest ih =>
    by_cases h : p.1 = k
    · simp [mget, mset, h]
    · simp [mget, mset, h, ih]

theorem mget_mset_ne (m : List (κ × ν)) (k q : κ) (v : ν) (h : k ≠ q) :
    mget (mset m k v) q = mget m q := by
  induction m with
  | nil => simp [mget, mset, h]
  | cons p rest ih =>
    by_cases hp : p.1 = k
    · simp only [mset, if_pos hp, mget]
      rw [if_neg h, if_neg (by rw [hp]; exact h)]
    · simp only [mset, if_neg hp, mget]
      by_cases hq : p.1 = q
      · rw [if_pos hq, if_pos hq]
      · rw [if_neg hq, if_neg hq, ih]

theorem mem_mset (m : List (κ × ν)) (k : κ) (v : ν) (p : κ × ν)
    (h : p ∈ mset m k v) : p.1 = k ∨ p ∈ m := by
  induction m with
  | nil =>
    simp [mset] at h
    subst h; left; rfl
  | cons q rest ih =>
    by_cases hq : q.1 = k
    · simp [mset, hq] at h
      rcases h with h | h
      · subst h; left; rfl
      · right; exact List.mem_cons_of_mem _ h
    · simp [mset, hq] at h
      rcases h with h | h
      · right; subst h; exact List.mem_cons_self _ _
      · rcases ih h with h1 | h1
        · left; exact h1
        · right; exact List.mem_cons_of_mem _ h1

theorem mget_mem (m : List (κ × ν)) (k : κ) (v : ν) (h : mget m k = some v) :
    (k, v) ∈ m := by
  induction m with
  | nil => simp [mget] at h
  | cons p rest ih =>
    by_cases hp : p.1 = k
    · simp [mget, hp] at h
      subst h
      have : p = (k, p.2) := by
        cases p; simp at hp; simp [hp]
      rw [← this]; exact List.mem_cons_self _ _
    · simp [mget, hp] at h
      exact List.mem_cons_of_mem _ (ih h)

end AssocMap

/-- Sum of all counts of a weighted table. -/
def tableSum (t : Table) : Nat := (t.map Prod.snd).sum

/-- Bumping one key of a count table (`t.set(k, (t.get(k) || 0) + 1)`)
raises the total by one. -/
theorem tableSum_bump (t : Table) (k : Token) :
    tableSum (mset t k ((mget t k).getD 0 + 1)) = tableSum t + 1 := by
  induction t with
  | nil => simp [tableSum, mget, mset]
  | cons p rest ih =>
    by_cases hp : p.1 = k
    · simp [tableSum, mget, mset, hp]
      omega
    · simp [tableSum, mget, mset, hp] at *
      omega

/-- `getInitialState`: a tuple of `1 + order` copies of `BEGIN`. -/
def getInitialState (order : Nat) : State :=
  List.replicate (1 + order) Token.begin

/-- The padded items array formed by `seed`:
`[...initialState, ...run, END]`. -/
def itemsOf (initialState : State) (run : List JSVal) : List Token :=
  initialState ++ run.map Token.val ++ [Token.stop]

/-- The padded items array for the initial state a corpus-built chain uses
(`buildModel` always seeds with `getInitialState(order)`). -/
def paddedItems (order : Nat) (run : List JSVal) : List Token :=
  itemsOf (getInitialState order) run

/-- JavaScript `arr[i]`, with `undefined` for an out-of-range index,
rendered as a total function with explicit default. -/
def getU (items : List Token) (i : Nat) : Token :=
  items.getD i Token.undef

/-- `items.slice(i, i + 1 + order)`: the state window at position `i`. -/
def window (items : List Token) (order i : Nat) : State :=
  (items.drop i).take (order + 1)

/-- `const prev = items[i - 1] || BEGIN` from `Chain.seed`.  For `i = 0` the
JavaScript index is `-1`, so `items[i-1]` is `undefined` (falsy); for `i > 0`
a falsy token value (`0`, `''`, `false`, `null`) is likewise replaced by
`BEGIN` by the `||` operator. -/
def prevOf (items : List Token) (i : Nat) : Token :=
  let t := if i = 0 then Token.undef else getU items (i - 1)
  if t.falsy then Token.begin else t

/-- One iteration of the loop body of `Chain.seed` at index `i` (the
`tokenMap` maintenance is omitted: the sole caller in this file,
`buildModel`, never passes a token map, mirroring `buildModel` in
`chain.js`). -/
def seedIter (order : Nat) (items : List Token) (model : Model) (i : Nat) :
    Model :=
  let state := window items order i
  let next := getU items (i + 1 + order)
  let prev := prevOf items i
  let m1 := if (mget model state).isSome then model
            else mset model state ([], [])
  let tabs := (mget m1 state).getD ([], [])
  mset m1 state
    (mset tabs.1 next ((mget tabs.1 next).getD 0 + 1),
     mset tabs.2 prev ((mget tabs.2 prev).getD 0 + 1))

/-- `Chain.seed`: update a model from a single run (loop over
`0 ≤ i < run.length + 1`). -/
def seedRun (order : Nat) (run : List JSVal) (initialState : State)
    (model : Model) : Model :=
  (List.range (run.length + 1)).foldl
    (seedIter order (itemsOf initialState run)) model

/-- `buildModel`: fold `Chain.seed` over the corpus starting from an empty
map, always passing `getInitialState(order)` (the `order < 0` fast failure
cannot arise for a natural-number order). -/
def buildModel (corpus : List (List JSVal)) (order : Nat) : Model :=
  corpus.foldl (fun m run => seedRun order run (getInitialState order) m) []

/-- `Set.prototype.add` on an insertion-ordered set of states. -/
def sadd (s : List State) (x : State) : List State :=
  if x ∈ s then s else s ++ [x]

/-- `buildTokenMap`: register every token of every state as mapping to that
state. -/
def buildTokenMap (model : Model) : TokenMap :=
  model.foldl
    (fun tm p =>
      p.1.foldl
        (fun tm tok =>
          let tm1 := if (mget tm tok).isSome then tm else mset tm tok []
          mset tm1 tok (sadd ((mget tm1 tok).getD []) p.1))
        tm)
    []

/-- The chain aggregate: order, state space and optional token map. -/
structure Chain where
  order : Nat
  model : Model
  tokenMap : Option TokenMap
deriving DecidableEq

/-- The `Chain` constructor on the corpus path (`options.model` absent):
build the model from the corpus, and build the token map only when requested
and the order is positive. -/
def mkChain (corpus : List (List JSVal)) (order : Nat) (useTokenMap : Bool) :
    Chain :=
  let model := buildModel corpus order
  { order := order
    model := model
    tokenMap := if useTokenMap = true ∧ 0 < order then some (buildTokenMap model)
                else none }

/-- Sum of the `nextTable` counts of a state (`0` when the state is absent). -/
def nextSumOf (m : Model) (s : State) : Nat :=
  match mget m s with
  | none => 0
  | some tabs => tableSum tabs.1

/-- Sum of the `prevTable` counts of a state (`0` when the state is absent). -/
def prevSumOf (m : Model) (s : State) : Nat :=
  match mget m s with
  | none => 0
  | some tabs => tableSum tabs.2

/-- The `prevTable` count a state holds for one token. -/
def prevCountOf (m : Model) (s : State) (q : Token) : Nat :=
  match mget m s with
  | none => 0
  | some tabs => (mget tabs.2 q).getD 0

/-- What one `seed` iteration stores: the entry of its own window gets both
tables bumped (the window is created on demand), all other entries are left
alone. -/
theorem seedIter_mget (order : Nat) (items : List Token) (m : Model) (i : Nat)
    (s : State) :
    mget (seedIter order items m i) s =
      if window items order i = s then
        some
          (mset ((mget m s).getD ([], [])).1 (getU items (i + 1 + order))
             ((mget ((mget m s).getD ([], [])).1 (getU items (i + 1 + order))).getD 0 + 1),
           mset ((mget m s).getD ([], [])).2 (prevOf items i)
             ((mget ((mget m s).getD ([], [])).2 (prevOf items i)).getD 0 + 1))
      else mget m s := by
  by_cases hst : window items order i = s
  · subst hst
    rw [if_pos rfl]
    cases hm : mget m (window items order i) with
    | none =>
      simp only [seedIter, hm, Option.isSome_none, Bool.false_eq_true, if_neg,
        ite_false, mget_mset_self, Option.getD_some, Option.getD_none]
    | some tabs =>
      simp only [seedIter, hm, Option.isSome_some, ite_true, mget_mset_self,
        Option.getD_some]
  · rw [if_neg hst]
    by_cases hm : (mget m (window items order i)).isSome
    · simp only [seedIter, hm, ite_true]
      exact mget_mset_ne _ _ _ _ hst
    · simp only [seedIter, hm, Bool.false_eq_true, ite_false]
      rw [mget_mset_ne _ _ _ _ hst, mget_mset_ne _ _ _ _ hst]

/-- One `seed` iteration raises the `nextTable` total of its own window by
one and leaves every other state's total unchanged. -/
theorem seedIter_nextSumOf (order : Nat) (items : List Token) (m : Model)
    (i : Nat) (s : State) :
    nextSumOf (seedIter order items m i) s =
      nextSumOf m s + (if window items order i = s then 1 else 0) := by
  unfold nextSumOf
  rw [seedIter_mget]
  by_cases hst : window items order i = s
  · rw [if_pos hst, if_pos hst]
    cases hm : mget m s with
    | none => simpa using tableSum_bump [] (getU items (i + 1 + order))
    | some tabs => simpa using tableSum_bump tabs.1 (getU items (i + 1 + order))
  · rw [if_neg hst, if_neg hst]
    cases mget m s <;> simp

/-- One `seed` iteration raises the `prevTable` total of its own window by
one and leaves every other state's total unchanged. -/
theorem seedIter_prevSumOf (order : Nat) (items : List Token) (m : Model)
    (i : Nat) (s : State) :
    prevSumOf (seedIter order items m i) s =
      prevSumOf m s + (if window items order i = s then 1 else 0) := by
  unfold prevSumOf
  rw [seedIter_mget]
  by_cases hst : window items order i = s
  · rw [if_pos hst, if_pos hst]
    cases hm : mget m s with
    | none => simpa using tableSum_bump [] (prevOf items i)
    | some tabs => simpa using tableSum_bump tabs.2 (prevOf items i)
  · rw [if_neg hst, if_neg hst]
    cases mget m s <;> simp

/-- One `seed` iteration bumps exactly the `prevTable` entry of the token
`prevOf items i` of its own window. -/
theorem seedIter_prevCountOf (order : Nat) (items : List Token) (m : Model)
    (i : Nat) (s : State) (q : Token) :
    prevCountOf (seedIter order items m i) s q =
      prevCountOf m s q +
        (if window items order i = s ∧ q = prevOf items i then 1 else 0) := by
  unfold prevCountOf
  rw [seedIter_mget]
  by_cases hst : window items order i = s
  · rw [if_pos hst]
    by_cases hq : q = prevOf items i
    · subst hq
      rw [if_pos ⟨hst, rfl⟩]
      cases hm : mget m s with
      | none => simp [mget_mset_self, mget]
      | some tabs => simp [mget_mset_self]
    · rw [if_neg (fun h => hq h.2)]
      cases hm : mget m s with
      | none =>
        simp only [Option.getD_none, Option.getD_some]
        rw [mget_mset_ne _ _ _ _ (fun h => hq h.symm)]
        simp [mget]
      | some tabs =>
        simp only [Option.getD_some]
        rw [mget_mset_ne _ _ _ _ (fun h => hq h.symm)]
        omega
  · rw [if_neg hst, if_neg (fun h => hst h.1)]
    omega

/-- Folding `seed` iterations over a list of indices adds, to each state's
`nextTable` total, the number of those indices whose window is that state. -/
theorem foldl_seedIter_nextSumOf (order : Nat) (items : List Token)
    (l : List Nat) (m : Model) (s : State) :
    nextSumOf (l.foldl (seedIter order items) m) s =
      nextSumOf m s + l.countP (fun i => decide (window items order i = s)) := by
  induction l generalizing m with
  | nil => simp
  | cons a l ih =>
    rw [List.foldl_cons, ih, seedIter_nextSumOf, List.countP_cons]
    by_cases h : window items order a = s <;> simp [h] <;> omega

/-- `prevTable` analogue of `foldl_seedIter_nextSumOf`. -/
theorem foldl_seedIter_prevSumOf (order : Nat) (items : List Token)
    (l : List Nat) (m : Model) (s : State) :
    prevSumOf (l.foldl (seedIter order items) m) s =
      prevSumOf m s + l.countP (fun i => decide (window items order i = s)) := by
  induction l generalizing m with
  | nil => simp
  | cons a l ih =>
    rw [List.foldl_cons, ih, seedIter_prevSumOf, List.countP_cons]
    by_cases h : window items order a = s <;> simp [h] <;> omega

/-- Number of iteration indices of `seed` at which the given state window is
observed in one run. -/
def runWindowCount (order : Nat) (run : List JSVal) (s : State) : Nat :=
  (List.range (run.length + 1)).countP
    (fun i => decide (window (paddedItems order run) order i = s))

/-- Number of positions across the whole corpus at which the given state
window is observed. -/
def corpusWindowCount (order : Nat) (corpus : List (List JSVal)) (s : State) :
    Nat :=
  (corpus.map (fun run => runWindowCount order run s)).sum

theorem seedRun_nextSumOf (order : Nat) (run : List JSVal) (m : Model)
    (s : State) :
    nextSumOf (seedRun order run (getInitialState order) m) s =
      nextSumOf m s + runWindowCount order run s := by
  unfold seedRun runWindowCount paddedItems
  exact foldl_seedIter_nextSumOf _ _ _ _ _

theorem seedRun_prevSumOf (order : Nat) (run : List JSVal) (m : Model)
    (s : State) :
    prevSumOf (seedRun order run (getInitialState order) m) s =
      prevSumOf m s + runWindowCount order run s := by
  unfold seedRun runWindowCount paddedItems
  exact foldl_seedIter_prevSumOf _ _ _ _ _

theorem foldl_seedRun_nextSumOf (order : Nat) (corpus : List (List JSVal))
    (m : Model) (s : State) :
    nextSumOf
        (corpus.foldl (fun m run => seedRun order run (getInitialState order) m) m)
        s =
      nextSumOf m s + corpusWindowCount order corpus s := by
  induction corpus generalizing m with
  | nil => simp [corpusWindowCount]
  | cons run corpus ih =>
    rw [List.foldl_cons, ih, seedRun_nextSumOf]
    simp [corpusWindowCount]
    omega

theorem foldl_seedRun_prevSumOf (order : Nat) (corpus : List (List JSVal))
    (m : Model) (s : State) :
    prevSumOf
        (corpus.foldl (fun m run => seedRun order run (getInitialState order) m) m)
        s =
      prevSumOf m s + corpusWindowCount order corpus s := by
  induction corpus generalizing m with
  | nil => simp [corpusWindowCount]
  | cons run corpus ih =>
    rw [List.foldl_cons, ih, seedRun_prevSumOf]
    simp [corpusWindowCount]
    omega

/-- Claim C3: for every corpus, every order and every state, after building
the model by repeated seeding from an initially empty model, the sum of the
state's `nextTable` counts equals the number of positions across the whole
corpus at which that exact window of `order + 1` tokens was observed, and
the sum of its `prevTable` counts equals the same number. -/
theorem buildModel_table_sums (corpus : List (List JSVal)) (order : Nat)
    (s : State) :
    nextSumOf (buildModel corpus order) s = corpusWindowCount order corpus s ∧
    prevSumOf (buildModel corpus order) s = corpusWindowCount order corpus s := by
  unfold buildModel
  constructor
  · simpa [nextSumOf, mget] using foldl_seedRun_nextSumOf order corpus [] s
  · simpa [prevSumOf, mget] using foldl_seedRun_prevSumOf order corpus [] s

/-- The predecessor token as the amended claim describes it: `BEGIN` when
`i = 0` or when `items[i-1]` is a JavaScript-falsy token value, and
`items[i-1]` otherwise. -/
def claimedPrev (items : List Token) (i : Nat) : Token :=
  if i = 0 then Token.begin
  else if (getU items (i - 1)).falsy then Token.begin
  else getU items (i - 1)

theorem claimedPrev_eq_prevOf (items : List Token) (i : Nat) :
    claimedPrev items i = prevOf items i := by
  unfold claimedPrev prevOf
  by_cases h : i = 0
  · simp [h, Token.falsy]
  · simp [h]

/-- Claim C2 (amended): in one `seed` iteration at index `i ≤ run.length`
over the padded sequence, the unique predecessor token whose `prevTable`
count is incremented for the window state is `items[i-1]` when `i > 0` and
`items[i-1]` is not JavaScript-falsy, and `BEGIN` when `i = 0` or when
`items[i-1]` is a falsy token value such as `0`, `''` or `false`. -/
theorem seed_prev_increment (order : Nat) (run : List JSVal) (m : Model)
    (i : Nat) (hi : i ≤ run.length) :
    prevCountOf (seedIter order (paddedItems order run) m i)
        (window (paddedItems order run) order i)
        (claimedPrev (paddedItems order run) i) =
      prevCountOf m (window (paddedItems order run) order i)
          (claimedPrev (paddedItems order run) i) + 1 ∧
    ∀ q, q ≠ claimedPrev (paddedItems order run) i →
      prevCountOf (seedIter order (paddedItems order run) m i)
          (window (paddedItems order run) order i) q =
        prevCountOf m (window (paddedItems order run) order i) q := by
  constructor
  · rw [seedIter_prevCountOf]
    rw [if_pos ⟨rfl, claimedPrev_eq_prevOf _ _⟩]
  · intro q hq
    rw [seedIter_prevCountOf]
    rw [if_neg (fun h => hq (h.2.trans (claimedPrev_eq_prevOf _ _).symm))]
    omega

/-- Witness for `seed_prev_increment` at a concrete input: order 1, run
`['x']`, iteration `i = 1` (where `items[0]` is a padding `BEGIN`). -/
theorem seed_prev_increment_witness :
    prevCountOf (seedIter 1 (paddedItems 1 [JSVal.str "x"]) [] 1)
        (window (paddedItems 1 [JSVal.str "x"]) 1 1)
        (claimedPrev (paddedItems 1 [JSVal.str "x"]) 1) =
      prevCountOf [] (window (paddedItems 1 [JSVal.str "x"]) 1 1)
          (claimedPrev (paddedItems 1 [JSVal.str "x"]) 1) + 1 ∧
    ∀ q, q ≠ claimedPrev (paddedItems 1 [JSVal.str "x"]) 1 →
      prevCountOf (seedIter 1 (paddedItems 1 [JSVal.str "x"]) [] 1)
          (window (paddedItems 1 [JSVal.str "x"]) 1 1) q =
        prevCountOf [] (window (paddedItems 1 [JSVal.str "x"]) 1 1) q :=
  seed_prev_increment 1 [JSVal.str "x"] [] 1 (by decide)

/-- Counterexample to claim C2 as stated: with order 0 and run `[0, 'a']`,
at iteration `i = 2` the predecessor `items[1]` is the falsy token `0`, yet
the `prevTable` entry incremented for the window `('a')` is `BEGIN`, not
`items[1]`: the count of `items[1]` stays 0 while `BEGIN` gets count 1. -/
theorem seed_prev_falsy_counterexample :
    getU (paddedItems 0 [JSVal.num 0, JSVal.str "a"]) 1 =
        Token.val (JSVal.num 0) ∧
    prevCountOf (seedIter 0 (paddedItems 0 [JSVal.num 0, JSVal.str "a"]) [] 2)
        (window (paddedItems 0 [JSVal.num 0, JSVal.str "a"]) 0 2)
        (Token.val (JSVal.num 0)) = 0 ∧
    prevCountOf (seedIter 0 (paddedItems 0 [JSVal.num 0, JSVal.str "a"]) [] 2)
        (window (paddedItems 0 [JSVal.num 0, JSVal.str "a"]) 0 2)
        Token.begin = 1 := by
  decide

/-- `util.bisect`, a port of Python's `bisect.bisect` (right insertion
point), as the `while (lo < hi)` loop of `util.js`.  Out-of-range reads
cannot occur for the in-bounds `lo`/`hi` the library uses; `getD _ 0` stands
for `a[mid]`. -/
def bisect (a : List ℚ) (x : ℚ) (lo hi : Nat) : Nat :=
  if lo < hi then
    let mid := (lo + hi) / 2
    if x < a.getD mid 0 then bisect a x lo mid
    else bisect a x (mid + 1) hi
  else lo
termination_by hi - lo
decreasing_by
  · omega
  · omega

/-- The `reduce` of `weightedPick` building the running cumulative sums:
`result.concat((util.last(result) || 0) + weight)`. -/
def cumSums (ws : List ℚ) : List ℚ :=
  ws.foldl (fun acc w => acc ++ [(acc.getLast?.getD 0) + w]) []

/-- `util.last`: `arr[arr.length - 1]`; the library only applies it to
non-empty arrays of numbers, so the `undefined` of an empty array is
rendered as `0`. -/
def lastOr0 (l : List ℚ) : ℚ := l.getD (l.length - 1) 0

/-- `util.weightedPick` with the value `r` that the source draws as
`Math.random() * util.last(distributionSum)` taken as a parameter. -/
def weightedPickR (ws : List ℚ) (r : ℚ) : Nat :=
  bisect (cumSums ws) r 0 (cumSums ws).length

/-- `util.weightedPick` with the `Math.random()` draw `ρ` as a parameter. -/
def weightedPick (ws : List ℚ) (ρ : ℚ) : Nat :=
  weightedPickR ws (ρ * lastOr0 (cumSums ws))

/-- Reference form of the cumulative sums: scan from a running total. -/
def cumFrom (s : ℚ) : List ℚ → List ℚ
  | [] => []
  | w :: ws => (s + w) :: cumFrom (s + w) ws

theorem cumSums_foldl_eq (ws : List ℚ) (acc : List ℚ) :
    ws.foldl (fun acc w => acc ++ [(acc.getLast?.getD 0) + w]) acc =
      acc ++ cumFrom (acc.getLast?.getD 0) ws := by
  induction ws generalizing acc with
  | nil => simp [cumFrom]
  | cons w ws ih =>
    rw [List.foldl_cons, ih]
    have hlast : (acc ++ [acc.getLast?.getD 0 + w]).getLast?.getD 0 =
        acc.getLast?.getD 0 + w := by
      rw [List.getLast?_append]
      simp
    rw [hlast]
    simp [cumFrom]

theorem cumSums_eq_cumFrom (ws : List ℚ) : cumSums ws = cumFrom 0 ws := by
  unfold cumSums
  simpa using cumSums_foldl_eq ws []

theorem cumFrom_length (s : ℚ) (ws : List ℚ) :
    (cumFrom s ws).length = ws.length := by
  induction ws generalizing s with
  | nil => rfl
  | cons w ws ih => simp [cumFrom, ih]

theorem cumSums_length (ws : List ℚ) : (cumSums ws).length = ws.length := by
  rw [cumSums_eq_cumFrom, cumFrom_length]

theorem cumFrom_getD (s : ℚ) (ws : List ℚ) (i : Nat) (h : i < ws.length) :
    (cumFrom s ws).getD i 0 = s + (ws.take (i + 1)).sum := by
  induction ws generalizing s i with
  | nil => simp at h
  | cons w ws ih =>
    cases i with
    | zero => simp [cumFrom]
    | succ j =>
      have hj : j < ws.length := by simpa using h
      simp only [cumFrom, List.getD_cons_succ, List.take_succ_cons,
        List.sum_cons]
      rw [ih (s + w) j hj]
      ring

theorem cumSums_getD (ws : List ℚ) (i : Nat) (h : i < ws.length) :
    (cumSums ws).getD i 0 = (ws.take (i + 1)).sum := by
  rw [cumSums_eq_cumFrom, cumFrom_getD 0 ws i h, zero_add]

theorem take_sum_mono (ws : List ℚ) (hnn : ∀ w ∈ ws, 0 ≤ w) (m n : Nat)
    (hmn : m ≤ n) : (ws.take m).sum ≤ (ws.take n).sum := by
  induction ws generalizing m n with
  | nil => simp
  | cons w ws ih =>
    cases m with
    | zero =>
      simp only [List.take_zero, List.sum_nil]
      have : ∀ x ∈ List.take n (w :: ws), 0 ≤ x := fun x hx =>
        hnn x (List.take_subset _ _ hx)
      exact List.sum_nonneg this
    | succ m1 =>
      cases n with
      | zero => omega
      | succ n1 =>
        simp only [List.take_succ_cons, List.sum_cons]
        have hws : ∀ x ∈ ws, 0 ≤ x := fun x hx =>
          hnn x (List.mem_cons_of_mem _ hx)
        have := ih hws m1 n1 (by omega)
        linarith

theorem take_sum_step (ws : List ℚ) (k : Nat) (h : k < ws.length) :
    (ws.take (k + 1)).sum = (ws.take k).sum + ws.getD k 0 := by
  induction ws generalizing k with
  | nil => simp at h
  | cons w ws ih =>
    cases k with
    | zero => simp
    | succ j =>
      have hj : j < ws.length := by simpa using h
      simp only [List.take_succ_cons, List.sum_cons, List.getD_cons_succ]
      rw [ih j hj]
      ring

theorem cumSums_mono (ws : List ℚ) (hnn : ∀ w ∈ ws, 0 ≤ w) (i j : Nat)
    (hij : i ≤ j) (hj : j < ws.length) :
    (cumSums ws).getD i 0 ≤ (cumSums ws).getD j 0 := by
  rw [cumSums_getD ws i (by omega), cumSums_getD ws j hj]
  exact take_sum_mono ws hnn (i + 1) (j + 1) (by omega)

theorem cumSums_last (ws : List ℚ) (h : ws ≠ []) :
    (cumSums ws).getD (ws.length - 1) 0 = ws.sum := by
  have hlen : 0 < ws.length := List.length_pos.mpr h
  rw [cumSums_getD ws (ws.length - 1) (by omega)]
  have : ws.length - 1 + 1 = ws.length := by omega
  rw [this, List.take_length]

/-- The loop invariant of `bisect`: on a sorted array, with everything
before `lo` known `≤ x` and everything from `hi` on known `> x`, the result
separates the array at the right insertion point of `x`. -/
theorem bisect_invariant (a : List ℚ) (x : ℚ)
    (hmono : ∀ i j, i ≤ j → j < a.length → a.getD i 0 ≤ a.getD j 0) :
    ∀ fuel lo hi, hi - lo ≤ fuel → lo ≤ hi → hi ≤ a.length →
      (∀ j, j < lo → a.getD j 0 ≤ x) →
      (∀ j, hi ≤ j → j < a.length → x < a.getD j 0) →
      lo ≤ bisect a x lo hi ∧ bisect a x lo hi ≤ hi ∧
      (∀ j, j < bisect a x lo hi → a.getD j 0 ≤ x) ∧
      (∀ j, bisect a x lo hi ≤ j → j < a.length → x < a.getD j 0) := by
  intro fuel
  induction fuel with
  | zero =>
    intro lo hi hfuel hlohi hhi hlow hhigh
    have : lo = hi := by omega
    subst this
    rw [bisect, if_neg (by omega)]
    exact ⟨le_refl _, le_refl _, hlow, fun j hj hjlen => hhigh j hj hjlen⟩
  | succ fuel ih =>
    intro lo hi hfuel hlohi hhi hlow hhigh
    by_cases hlt : lo < hi
    · rw [bisect, if_pos hlt]
      have hmid1 : lo ≤ (lo + hi) / 2 := by omega
      have hmid2 : (lo + hi) / 2 < hi := by omega
      by_cases hx : x < a.getD ((lo + hi) / 2) 0
      · rw [if_pos hx]
        exact
          (ih lo ((lo + hi) / 2) (by omega) (by omega) (by omega) hlow
            (fun j hj hjlen =>
              lt_of_lt_of_le hx (hmono _ j hj hjlen))).imp
            id (fun h2 => ⟨le_trans h2.1 (by omega), h2.2⟩)
      · rw [if_neg hx]
        push_neg at hx
        have hlow2 : ∀ j, j < (lo + hi) / 2 + 1 → a.getD j 0 ≤ x := by
          intro j hj
          exact le_trans (hmono j ((lo + hi) / 2) (by omega) (by omega)) hx
        exact
          (ih ((lo + hi) / 2 + 1) hi (by omega) (by omega) hhi hlow2
            hhigh).imp (fun h1 => by omega) id
    · rw [bisect, if_neg hlt]
      have : lo = hi := by omega
      subst this
      exact ⟨le_refl _, le_refl _, hlow, fun j hj hjlen => hhigh j hj hjlen⟩

/-- Claim C4: for every non-empty list of non-negative weights and every
draw `r` with `0 ≤ r < total`, `weightedPick` (via `bisect` over the
cumulative sums) returns a valid index, and that index is the left-most one
whose running cumulative sum strictly exceeds `r`. -/
theorem weightedPickR_leftmost (ws : List ℚ) (r : ℚ) (hne : ws ≠ [])
    (hnn : ∀ w ∈ ws, 0 ≤ w) (hr0 : 0 ≤ r) (hrt : r < ws.sum) :
    weightedPickR ws r < ws.length ∧
    r < (cumSums ws).getD (weightedPickR ws r) 0 ∧
    ∀ j, j < weightedPickR ws r → (cumSums ws).getD j 0 ≤ r := by
  have hlen : (cumSums ws).length = ws.length := cumSums_length ws
  have hpos : 0 < ws.length := List.length_pos.mpr hne
  have hmono : ∀ i j, i ≤ j → j < (cumSums ws).length →
      (cumSums ws).getD i 0 ≤ (cumSums ws).getD j 0 := by
    intro i j hij hj
    exact cumSums_mono ws hnn i j hij (by omega)
  have hinv :=
    bisect_invariant (cumSums ws) r hmono ((cumSums ws).length) 0
      ((cumSums ws).length) (by omega) (by omega) (le_refl _)
      (by intro j hj; omega) (by intro j hj hjlen; omega)
  obtain ⟨h0, hle, hbelow, habove⟩ := hinv
  have hkeq : weightedPickR ws r = bisect (cumSums ws) r 0 (cumSums ws).length :=
    rfl
  have hklt : weightedPickR ws r < ws.length := by
    by_contra hk
    push_neg at hk
    have hlast : (cumSums ws).getD (ws.length - 1) 0 ≤ r :=
      hbelow (ws.length - 1) (by omega)
    rw [cumSums_last ws hne] at hlast
    linarith
  refine ⟨hklt, ?_, ?_⟩
  · exact habove (weightedPickR ws r) (by omega) (by omega)
  · intro j hj
    exact hbelow j (by omega)

/-- Claim C10: with at least one strictly positive weight and a draw
`0 ≤ r < total`, the index `weightedPick` returns carries a strictly
positive weight — a zero-weight entry is never selected. -/
theorem weightedPickR_pos_weight (ws : List ℚ) (r : ℚ) (hne : ws ≠ [])
    (hnn : ∀ w ∈ ws, 0 ≤ w) (hpos : ∃ w ∈ ws, 0 < w) (hr0 : 0 ≤ r)
    (hrt : r < ws.sum) :
    0 < ws.getD (weightedPickR ws r) 0 := by
  obtain ⟨hklt, hkgt, hbelow⟩ := weightedPickR_leftmost ws r hne hnn hr0 hrt
  rw [cumSums_getD ws _ hklt] at hkgt
  rw [take_sum_step ws _ hklt] at hkgt
  cases hk : weightedPickR ws r with
  | zero =>
    rw [hk] at hkgt
    simp only [List.take_zero, List.sum_nil, zero_add] at hkgt
    linarith
  | succ k1 =>
    rw [hk] at hkgt hbelow hklt
    have hk1 : (cumSums ws).getD k1 0 ≤ r := hbelow k1 (by omega)
    rw [cumSums_getD ws k1 (by omega)] at hk1
    linarith

/-- Witness for `weightedPickR_leftmost` at weights `[1, 2]` and draw
`r = 1/2`. -/
theorem weightedPickR_leftmost_witness :
    weightedPickR [(1 : ℚ), 2] (1 / 2) < ([(1 : ℚ), 2] : List ℚ).length ∧
    (1 : ℚ) / 2 < (cumSums [(1 : ℚ), 2]).getD (weightedPickR [(1 : ℚ), 2] (1 / 2)) 0 ∧
    ∀ j, j < weightedPickR [(1 : ℚ), 2] (1 / 2) →
      (cumSums [(1 : ℚ), 2]).getD j 0 ≤ 1 / 2 :=
  weightedPickR_leftmost [(1 : ℚ), 2] (1 / 2) (by simp)
    (by intro w hw; fin_cases hw <;> norm_num) (by norm_num)
    (by norm_num [List.sum_cons, List.sum_nil])

/-- Witness for `weightedPickR_pos_weight` at weights `[0, 2]` (one zero
weight) and draw `r = 1/2`. -/
theorem weightedPickR_pos_weight_witness :
    0 < ([(0 : ℚ), 2] : List ℚ).getD (weightedPickR [(0 : ℚ), 2] (1 / 2)) 0 :=
  weightedPickR_pos_weight [(0 : ℚ), 2] (1 / 2) (by simp)
    (by intro w hw; fin_cases hw <;> norm_num)
    (by exact ⟨2, by simp, by norm_num⟩) (by norm_num)
    (by norm_num [List.sum_cons, List.sum_nil])

/-- JavaScript `arr[i]` for an arbitrary element type: `undefined`
(rendered `none`) when out of range. -/
def jsIndex {α : Type} (arr : List α) (i : Nat) : Option α :=
  match arr with
  | [] => none
  | a :: rest =>
    match i with
    | 0 => some a
    | j + 1 => jsIndex rest j

theorem jsIndex_lt {α : Type} (arr : List α) (i : Nat) (h : i < arr.length) :
    ∃ a, jsIndex arr i = some a ∧ a ∈ arr := by
  induction arr generalizing i with
  | nil => simp at h
  | cons a rest ih =>
    cases i with
    | zero => exact ⟨a, rfl, List.mem_cons_self _ _⟩
    | succ j =>
      obtain ⟨b, hb, hmem⟩ := ih j (by simpa using h)
      exact ⟨b, hb, List.mem_cons_of_mem _ hmem⟩

/-- `util.randomInt(max)`: `Math.floor(Math.random() * max)`, with the
`Math.random()` draw `ρ` as a parameter. -/
def randomIntIdx (max : Nat) (ρ : ℚ) : Nat :=
  Nat.floor (ρ * (max : ℚ))

theorem randomIntIdx_lt (max : Nat) (ρ : ℚ) (h0 : 0 ≤ ρ) (h1 : ρ < 1)
    (hpos : 0 < max) : randomIntIdx max ρ < max := by
  unfold randomIntIdx
  have hmax : (0 : ℚ) < (max : ℚ) := by exact_mod_cast hpos
  have : ρ * (max : ℚ) < (max : ℚ) := by
    calc ρ * (max : ℚ) < 1 * (max : ℚ) := by
          exact mul_lt_mul_of_pos_right h1 hmax
      _ = (max : ℚ) := one_mul _
  have hnn : 0 ≤ ρ * (max : ℚ) := mul_nonneg h0 (le_of_lt hmax)
  have := (Nat.floor_lt hnn).mpr (by exact_mod_cast this)
  exact this

/-- `util.randomElement(arr)` without a weights argument: a uniform pick. -/
def randomElementU {α : Type} (arr : List α) (ρ : ℚ) : Option α :=
  jsIndex arr (randomIntIdx arr.length ρ)

/-- `util.randomElement(arr, weights)`: a weighted pick when the weights
array has the same length as `arr`, else a uniform pick. -/
def randomElementW {α : Type} (arr : List α) (weights : List ℚ) (ρ : ℚ) :
    Option α :=
  if weights.length = arr.length then jsIndex arr (weightedPick weights ρ)
  else jsIndex arr (randomIntIdx arr.length ρ)

/-- The stop token of a walk direction (`END` forward, `BEGIN` backward). -/
def stopTokenOf (forward : Bool) : Token :=
  if forward then Token.stop else Token.begin

/-- `Chain._step`: the absent-state case returns the direction's fail token;
otherwise a weighted random pick over the direction's table (keys as
choices, values as weights, both in insertion order). -/
def chainStep (c : Chain) (fromState : State) (forward : Bool) (ρ : ℚ) :
    Token :=
  match mget c.model fromState with
  | none => if forward then Token.stop else Token.begin
  | some tabs =>
    let tab := if forward then tabs.1 else tabs.2
    (randomElementW (tab.map Prod.fst) (tab.map (fun p => ((p.2 : Nat) : ℚ))) ρ).getD
      Token.undef

/-- The sliding-window update of `Chain._walk`: forward appends the step at
the tail and drops the head (`tuple(...state.slice(1), step)`); backward
prepends the step and drops the tail
(`tuple(step, ...state.slice(0, state.length - 1))`). -/
def walkUpdate (forward : Bool) (s : State) (step : Token) : State :=
  if forward then s.drop 1 ++ [step]
  else step :: s.take (s.length - 1)

/-- `Chain._walk` with explicit fuel: the list of yielded steps, paired with
`true` when the loop exited by finding the stop token (rather than running
out of fuel).  `draws n` is the `Math.random()` value consumed at the
`n`-th iteration. -/
def walkCollect (c : Chain) (forward : Bool) (draws : Nat → ℚ) :
    State → Nat → List Token × Bool
  | _, 0 => ([], false)
  | s, fuel + 1 =>
    let step := chainStep c s forward (draws 0)
    if step = stopTokenOf forward then ([], true)
    else
      let rest :=
        walkCollect c forward (fun n => draws (n + 1))
          (walkUpdate forward s step) fuel
      (step :: rest.1, rest.2)

/-- The internal state of `Chain._walk` after `n` loop iterations (the
state is left unchanged once the stop token has been found). -/
def walkStateN (c : Chain) (forward : Bool) (draws : Nat → ℚ) (s : State) :
    Nat → State
  | 0 => s
  | n + 1 =>
    let s1 := walkStateN c forward draws s n
    let step := chainStep c s1 forward (draws n)
    if step = stopTokenOf forward then s1 else walkUpdate forward s1 step

/-- Claim C5: stepping from a state absent from the state space returns the
direction's sentinel for every random draw (no sampling takes place), and a
walk that reaches such a state terminates normally at once, yielding
nothing. -/
theorem step_absent_state_sentinel (c : Chain) (s : State) (forward : Bool)
    (habs : mget c.model s = none) :
    (∀ ρ : ℚ, chainStep c s forward ρ = stopTokenOf forward) ∧
    (∀ draws : Nat → ℚ, ∀ fuel : Nat,
      walkCollect c forward draws s (fuel + 1) = ([], true)) := by
  have hstep : ∀ ρ : ℚ, chainStep c s forward ρ = stopTokenOf forward := by
    intro ρ
    unfold chainStep stopTokenOf
    rw [habs]
  refine ⟨hstep, ?_⟩
  intro draws fuel
  unfold walkCollect
  rw [hstep (draws 0), if_pos rfl]

/-- Witness for `step_absent_state_sentinel`: the empty chain holds no
states at all, so stepping from `('x')` is a dead end. -/
theorem step_absent_state_sentinel_witness :
    (∀ ρ : ℚ, chainStep (mkChain [] 0 false) [Token.val (JSVal.str "x")] true ρ =
      stopTokenOf true) ∧
    (∀ draws : Nat → ℚ, ∀ fuel : Nat,
      walkCollect (mkChain [] 0 false) true draws [Token.val (JSVal.str "x")]
        (fuel + 1) = ([], true)) :=
  step_absent_state_sentinel (mkChain [] 0 false) [Token.val (JSVal.str "x")]
    true (by rfl)

/-- The length of the walk's sliding-window update equals the length of the
state it updates, for non-empty states. -/
theorem walkUpdate_length (forward : Bool) (s : State) (step : Token)
    (h : 0 < s.length) : (walkUpdate forward s step).length = s.length := by
  unfold walkUpdate
  cases forward with
  | true => simp; omega
  | false => simp; omega

/-- Claim C9: throughout a walk started from a state of length `order + 1`,
the internal current state keeps length exactly `order + 1` after any
number of iterations, in both directions. -/
theorem walk_state_length_invariant (c : Chain) (forward : Bool)
    (draws : Nat → ℚ) (s : State) (h : s.length = c.order + 1) :
    ∀ n : Nat, (walkStateN c forward draws s n).length = c.order + 1 := by
  intro n
  induction n with
  | zero => exact h
  | succ n ih =>
    unfold walkStateN
    by_cases hstop :
        chainStep c (walkStateN c forward draws s n) forward (draws n) =
          stopTokenOf forward
    · rw [if_pos hstop]
      exact ih
    · rw [if_neg hstop]
      rw [walkUpdate_length _ _ _ (by omega)]
      exact ih

/-- Witness for `walk_state_length_invariant` on a chain of order 1 built
from the run `['x', 'y']`, starting from its initial state. -/
theorem walk_state_length_invariant_witness :
    (walkStateN (mkChain [[JSVal.str "x", JSVal.str "y"]] 1 false) true
        (fun _ => 0) (getInitialState 1) 3).length =
      (mkChain [[JSVal.str "x", JSVal.str "y"]] 1 false).order + 1 :=
  walk_state_length_invariant (mkChain [[JSVal.str "x", JSVal.str "y"]] 1 false)
    true (fun _ => 0) (getInitialState 1) (by rfl) 3

/-- The `starts` array of `Chain._genStateFrom`: the windows at positions
`1 ≤ i ≤ tokens.length` of the padded sequence (the loop runs
`0 ≤ i < run.length + 1` and `tuples.slice(1)` drops the first window),
filtered to those present in the state space. -/
def codeStarts (c : Chain) (tokens : List JSVal) : List State :=
  (((List.range (tokens.length + 1)).map
      (fun i => window (itemsOf (getInitialState c.order) tokens) c.order i)).drop 1).filter
    (fun t => (mget c.model t).isSome)

/-- `Chain._genStateFrom`.  `ρa` is the draw of `randomElement(starts)`,
`ρb` the draw picking a token among the token-map hits, `ρc` the draw
picking a state from that token's entry.  (If `randomElement` on a
non-empty `choices` returned `undefined` — impossible for real draws in
`[0, 1)` — the JavaScript code would throw on spreading
`tokenMap.get(undefined)`; that unreachable path is rendered as a fallback
to the initial state.) -/
def genStateFrom (c : Chain) (tokens : List JSVal) (useTokenMap : Bool)
    (ρa ρb ρc : ℚ) : State :=
  let starts := codeStarts c tokens
  let result := randomElementU starts ρa
  let result2 :=
    match result with
    | some st => some st
    | none =>
      if useTokenMap = true ∧ 0 < tokens.length ∧ c.tokenMap.isSome then
        let tm := c.tokenMap.getD []
        let choices := tokens.filter (fun t => (mget tm (Token.val t)).isSome)
        if 0 < choices.length then
          match randomElementU choices ρb with
          | none => none
          | some token => randomElementU ((mget tm (Token.val token)).getD []) ρc
        else none
      else none
  result2.getD (getInitialState c.order)

/-- `Chain.run`.  `ρa ρb ρc` are the draws of `_genStateFrom`, `fwdDraws`
and `bwdDraws` the per-iteration draws of the two walks, and `fuel` bounds
the number of walk iterations (the walks of the source have no such bound
and may diverge). -/
def runFn (c : Chain) (tokens : List JSVal)
    (backSearch useTokenMap runMissingTokens : Bool) (ρa ρb ρc : ℚ)
    (fwdDraws bwdDraws : Nat → ℚ) (fuel : Nat) :
    List Token × List Token × List Token :=
  let startState := genStateFrom c tokens useTokenMap ρa ρb ρc
  if runMissingTokens = false ∧ 0 < tokens.length ∧
      startState = getInitialState c.order then
    ([], [], [])
  else
    let forwardSteps := (walkCollect c true fwdDraws startState fuel).1
    let backSteps :=
      if backSearch then ((walkCollect c false bwdDraws startState fuel).1).reverse
      else []
    let hasSteps :=
      decide (0 < forwardSteps.length) ||
        (backSearch && decide (0 < backSteps.length))
    (backSteps,
     if hasSteps then
       startState.filter (fun t => !(t == Token.begin) && !(t == Token.stop))
     else [],
     forwardSteps)

/-- Claim C7: when `runMissingTokens` is false, the token list is non-empty
and start-state resolution fell all the way back to the initial state,
`run` short-circuits and returns exactly three empty sequences, for every
direction option, draw and fuel. -/
theorem run_refuses_missing_tokens (c : Chain) (tokens : List JSVal)
    (backSearch useTokenMap : Bool) (ρa ρb ρc : ℚ)
    (fwdDraws bwdDraws : Nat → ℚ) (fuel : Nat) (hne : tokens ≠ [])
    (hfall : genStateFrom c tokens useTokenMap ρa ρb ρc =
      getInitialState c.order) :
    runFn c tokens backSearch useTokenMap false ρa ρb ρc fwdDraws bwdDraws
      fuel = ([], [], []) := by
  unfold runFn
  rw [if_pos ⟨rfl, List.length_pos.mpr hne, hfall⟩]

/-- Witness for `run_refuses_missing_tokens`: a chain built from the corpus
`[['a']]` with order 0 and queried with the unknown token `'b'` resolves to
the initial state, and refuses to answer. -/
theorem run_refuses_missing_tokens_witness :
    runFn (mkChain [[JSVal.str "a"]] 0 false) [JSVal.str "b"] true true false
      0 0 0 (fun _ => 0) (fun _ => 0) 5 = ([], [], []) :=
  run_refuses_missing_tokens (mkChain [[JSVal.str "a"]] 0 false)
    [JSVal.str "b"] true true 0 0 0 (fun _ => 0) (fun _ => 0) 5
    (by decide) (by rfl)

/-- No state key of a model contains the `END` sentinel. -/
def modelNoStop (m : Model) : Prop := ∀ p ∈ m, Token.stop ∉ p.1

/-- A seeding window at index `i ≤ run.length` never contains `END` (the
sentinel sits one past the last window position the loop visits). -/
theorem window_paddedItems_no_stop (order : Nat) (run : List JSVal) (i : Nat)
    (hi : i ≤ run.length) :
    Token.stop ∉ window (paddedItems order run) order i := by
  unfold paddedItems itemsOf window
  intro hmem
  set front := getInitialState order ++ run.map Token.val with hfront
  have hflen : front.length = 1 + order + run.length := by
    simp [hfront, getInitialState]
  rw [List.drop_append_of_le_length (by omega)] at hmem
  rw [List.take_append_of_le_length (by rw [List.length_drop]; omega)] at hmem
  have hfr : Token.stop ∈ front :=
    List.drop_subset _ _ (List.take_subset _ _ hmem)
  rcases List.mem_append.mp hfr with h | h
  · have h2 : Token.stop ∈ List.replicate (1 + order) Token.begin := h
    exact Token.noConfusion (List.eq_of_mem_replicate h2)
  · obtain ⟨v, _, hv⟩ := List.mem_map.mp h
    exact Token.noConfusion hv

/-- Every key present after one `seed` iteration is either the iteration's
own window or was already present. -/
theorem seedIter_keys (order : Nat) (items : List Token) (m : Model)
    (i : Nat) (p : State × (Table × Table)) (h : p ∈ seedIter order items m i) :
    p.1 = window items order i ∨ p ∈ m := by
  simp only [seedIter] at h
  rcases mem_mset _ _ _ _ h with h1 | h1
  · left; exact h1
  · by_cases hm : (mget m (window items order i)).isSome
    · rw [if_pos hm] at h1
      right; exact h1
    · rw [if_neg hm] at h1
      rcases mem_mset _ _ _ _ h1 with h2 | h2
      · left; exact h2
      · right; exact h2

theorem seedRun_noStop (order : Nat) (run : List JSVal) (m : Model)
    (h : modelNoStop m) :
    modelNoStop (seedRun order run (getInitialState order) m) := by
  unfold seedRun
  have main : ∀ l : List Nat, (∀ i ∈ l, i ≤ run.length) → ∀ m : Model,
      modelNoStop m →
      modelNoStop (l.foldl (seedIter order (itemsOf (getInitialState order) run)) m) := by
    intro l
    induction l with
    | nil => intro _ m hm; exact hm
    | cons a l ih =>
      intro hl m hm
      rw [List.foldl_cons]
      apply ih (fun i hi => hl i (List.mem_cons_of_mem _ hi))
      intro p hp
      rcases seedIter_keys _ _ _ _ _ hp with h1 | h1
      · rw [h1]
        exact window_paddedItems_no_stop order run a (hl a (List.mem_cons_self _ _))
      · exact hm p h1
  exact main _ (fun i hi => by simpa using Nat.lt_succ_iff.mp (List.mem_range.mp hi)) m h

theorem buildModel_noStop (corpus : List (List JSVal)) (order : Nat) :
    modelNoStop (buildModel corpus order) := by
  unfold buildModel
  have main : ∀ cs : List (List JSVal), ∀ m : Model, modelNoStop m →
      modelNoStop
        (cs.foldl (fun m run => seedRun order run (getInitialState order) m) m) := by
    intro cs
    induction cs with
    | nil => intro m hm; exact hm
    | cons run cs ih =>
      intro m hm
      rw [List.foldl_cons]
      exact ih _ (seedRun_noStop order run m hm)
  exact main corpus [] (by intro p hp; simp at hp)

/-- The start-state candidates exactly as the claim words them: every
contiguous window of length `order + 1` of the padded sequence
`initial_state ++ tokens ++ [END]` except the very first one, filtered to
windows present as keys in the state space. -/
def specStartCandidates (c : Chain) (tokens : List JSVal) : List State :=
  (((List.range
        ((itemsOf (getInitialState c.order) tokens).length - (c.order + 1) + 1)).map
      (fun i => window (itemsOf (getInitialState c.order) tokens) c.order i)).drop 1).filter
    (fun t => (mget c.model t).isSome)

/-- The very last window of the padded sequence ends in `END`. -/
theorem window_last_has_stop (order : Nat) (tokens : List JSVal) :
    Token.stop ∈
      window (itemsOf (getInitialState order) tokens) order (tokens.length + 1) := by
  unfold itemsOf window
  set front := getInitialState order ++ tokens.map Token.val with hfront
  have hflen : front.length = 1 + order + tokens.length := by
    simp [hfront, getInitialState]
  rw [List.drop_append_of_le_length (by omega)]
  rw [List.take_of_length_le (by rw [List.length_append, List.length_drop]; simp; omega)]
  exact List.mem_append.mpr (Or.inr (List.mem_singleton.mpr rfl))

/-- On a model that contains no `END` inside its keys, the claim's candidate
list and the list the code computes coincide: the one extra window the
claim's phrasing includes (the final window, which contains `END`) is
removed by the state-space filter. -/
theorem specStartCandidates_eq_codeStarts (c : Chain) (tokens : List JSVal)
    (hns : modelNoStop c.model) :
    specStartCandidates c tokens = codeStarts c tokens := by
  unfold specStartCandidates codeStarts
  have hlen :
      (itemsOf (getInitialState c.order) tokens).length - (c.order + 1) + 1 =
        tokens.length + 1 + 1 := by
    simp [itemsOf, getInitialState]
    omega
  rw [hlen]
  rw [List.range_succ, List.map_append]
  rw [List.drop_append_of_le_length (by simp)]
  rw [List.filter_append]
  have hnone :
      mget c.model
        (window (itemsOf (getInitialState c.order) tokens) c.order
          (tokens.length + 1)) = none := by
    cases hmg :
        mget c.model
          (window (itemsOf (getInitialState c.order) tokens) c.order
            (tokens.length + 1)) with
    | none => rfl
    | some v =>
      exact absurd (window_last_has_stop c.order tokens)
        (hns _ (mget_mem _ _ _ hmg))
  simp [hnone]

/-- Claim C6: on a chain built from a corpus, whenever at least one window
of the padded input sequence (other than the very first) is present in the
state space, start-state resolution returns one of those surviving windows,
for every draw `ρa ∈ [0, 1)` of the uniform pick. -/
theorem genStateFrom_mem_candidates (corpus : List (List JSVal)) (order : Nat)
    (buildTM utm : Bool) (tokens : List JSVal) (ρa ρb ρc : ℚ) (h0 : 0 ≤ ρa)
    (h1 : ρa < 1)
    (hne : specStartCandidates (mkChain corpus order buildTM) tokens ≠ []) :
    genStateFrom (mkChain corpus order buildTM) tokens utm ρa ρb ρc ∈
      specStartCandidates (mkChain corpus order buildTM) tokens := by
  have hns : modelNoStop (mkChain corpus order buildTM).model :=
    buildModel_noStop corpus order
  rw [specStartCandidates_eq_codeStarts _ _ hns] at hne ⊢
  have hlen : 0 < (codeStarts (mkChain corpus order buildTM) tokens).length :=
    List.length_pos.mpr hne
  obtain ⟨st, hst, hmem⟩ :=
    jsIndex_lt (codeStarts (mkChain corpus order buildTM) tokens) _
      (randomIntIdx_lt _ ρa h0 h1 hlen)
  have hres :
      randomElementU (codeStarts (mkChain corpus order buildTM) tokens) ρa =
        some st := hst
  simp only [genStateFrom, hres]
  simpa using hmem

/-- Witness for `genStateFrom_mem_candidates`: order 0, corpus `[['a']]`,
input `['a']`, draw 0. -/
theorem genStateFrom_mem_candidates_witness :
    genStateFrom (mkChain [[JSVal.str "a"]] 0 false) [JSVal.str "a"] true 0 0 0 ∈
      specStartCandidates (mkChain [[JSVal.str "a"]] 0 false) [JSVal.str "a"] :=
  genStateFrom_mem_candidates [[JSVal.str "a"]] 0 false true [JSVal.str "a"]
    0 0 0 (by norm_num) (by norm_num) (by decide)

/-- `BEGIN.toString()`, the reserved marker string of the serialized form. -/
def beginStr : JSVal := JSVal.str "Symbol(@@BEGIN)"

/-- `END.toString()`, the reserved marker string of the serialized form. -/
def endStr : JSVal := JSVal.str "Symbol(@@END)"

/-- One record of the serialized form:
`[stateTokens, [nextPairs, prevPairs]]`, at the level of the values
`JSON.parse` yields. -/
abbrev SerRecord := List JSVal × (List (JSVal × Nat) × List (JSVal × Nat))

/-- The exceptions `Chain.fromJSON` can surface: the consistency error of
the validation gate (carrying the two numbers and the state interpolated
into its message), and the `TypeError`s of the constructor call
(destructuring `null`, and reading `.length` of `undefined` for an empty
prebuilt model). -/
inductive JSError where
  | inconsistentOrder (expected actual : Int) (state : List JSVal)
  | typeErrorNullOptions
  | typeErrorLengthOfUndefined
deriving DecidableEq

/-- Serialization of a state element in `toJSON`: only `BEGIN` is rewritten
to its marker string.  (`END` and `undefined` never occur inside a state of
a corpus-built model; `JSON.stringify` would render such a stray value as
`null`.) -/
def serStateTok : Token → JSVal
  | .begin => beginStr
  | .val v => v
  | .stop => JSVal.null
  | .undef => JSVal.null

/-- Serialization of a `nextTable` key in `toJSON`: only `END` is
rewritten. -/
def serNextTok : Token → JSVal
  | .stop => endStr
  | .val v => v
  | .begin => JSVal.null
  | .undef => JSVal.null

/-- Serialization of a `prevTable` key in `toJSON`: only `BEGIN` is
rewritten. -/
def serPrevTok : Token → JSVal
  | .begin => beginStr
  | .val v => v
  | .stop => JSVal.null
  | .undef => JSVal.null

/-- `Chain.toJSON`: one record per model entry, in model iteration order. -/
def toJSONSer (c : Chain) : List SerRecord :=
  c.model.map (fun p =>
    (p.1.map serStateTok,
     (p.2.1.map (fun kc => (serNextTok kc.1, kc.2)),
      p.2.2.map (fun kc => (serPrevTok kc.1, kc.2)))))

/-- Deserialization of a state element in `fromJSON`. -/
def parseStateTok (v : JSVal) : Token :=
  if v = beginStr then Token.begin else Token.val v

/-- Deserialization of a `nextTable` key in `fromJSON`. -/
def parseNextTok (v : JSVal) : Token :=
  if v = endStr then Token.stop else Token.val v

/-- Deserialization of a `prevTable` key in `fromJSON`. -/
def parsePrevTok (v : JSVal) : Token :=
  if v = beginStr then Token.begin else Token.val v

/-- The `[tuple(...stateTuple), [nextMap, prevMap]]` entry one record is
mapped to. -/
def parseRecordEntry (r : SerRecord) : State × (Table × Table) :=
  (r.1.map parseStateTok,
   (r.2.1.foldl (fun t kc => mset t (parseNextTok kc.1) kc.2) [],
    r.2.2.foldl (fun t kc => mset t (parsePrevTok kc.1) kc.2) []))

/-- The `.map` callback of `fromJSON` on the records after the first: the
state length of each is checked against the order inferred from the first
record (`curStateSize !== order + 1`), and the first mismatch throws the
consistency error, whose message interpolates `order`,
`curStateSize - 1` and the offending state. -/
def goRecords (order : Int) :
    List SerRecord → Except JSError (List (State × (Table × Table)))
  | [] => Except.ok []
  | r :: rest =>
    if (r.1.length : Int) ≠ order + 1 then
      Except.error
        (JSError.inconsistentOrder order ((r.1.length : Int) - 1) r.1)
    else
      match goRecords order rest with
      | Except.error e => Except.error e
      | Except.ok built => Except.ok (parseRecordEntry r :: built)

/-- `new Map(states)`: later entries with an equal key overwrite earlier
ones in place. -/
def modelOfEntries (l : List (State × (Table × Table))) : Model :=
  l.foldl (fun m p => mset m p.1 p.2) []

/-- The parsing and validation stage of `Chain.fromJSON`: the order local
(`none` while the record list is empty, mirroring the `undefined` of
`let order`), and the model `new Map(states)` builds. -/
def parseRecords : List SerRecord → Except JSError (Option Int × Model)
  | [] => Except.ok (none, [])
  | r :: rest =>
    match goRecords ((r.1.length : Int) - 1) rest with
    | Except.error e => Except.error e
    | Except.ok built =>
      Except.ok (some ((r.1.length : Int) - 1),
        modelOfEntries (parseRecordEntry r :: built))

/-- The options object of the `Chain` constructor. -/
structure CtorOpts where
  corpus : List (List JSVal)
  order : Nat
  useTokenMap : Bool
  model : Option Model

/-- The first positional argument of a `Chain` constructor call: `null`,
`undefined`, or an options object. -/
inductive CtorArg where
  | jsNull : CtorArg
  | jsUndefined : CtorArg
  | obj : CtorOpts → CtorArg

/-- The `Chain` constructor,
`constructor ({ corpus = [], order = 0, useTokenMap = false, model } = {})`:
the defaulted destructuring applies for `undefined` but throws a `TypeError`
for `null`; with a (truthy, possibly empty) prebuilt model the order is read
off the first key (throwing for an empty map); otherwise the model is built
from the corpus. -/
def chainNew : CtorArg → Except JSError Chain
  | .jsNull => Except.error JSError.typeErrorNullOptions
  | .jsUndefined => Except.ok (mkChain [] 0 false)
  | .obj o =>
    match o.model with
    | some m =>
      match m with
      | [] => Except.error JSError.typeErrorLengthOfUndefined
      | p :: _ =>
        Except.ok
          { order := p.1.length - 1
            model := m
            tokenMap :=
              if o.useTokenMap = true ∧ 0 < p.1.length - 1 then
                some (buildTokenMap m)
              else none }
    | none => Except.ok (mkChain o.corpus o.order o.useTokenMap)

/-- `Chain.fromJSON`: parse and validate the records, then execute
`return new Chain(null, { order, model: new Map(states) })` — the first
positional argument of that call is `null`, which the constructor
destructures. -/
def fromJSONChain (recs : List SerRecord) : Except JSError Chain :=
  match parseRecords recs with
  | Except.error e => Except.error e
  | Except.ok _ => chainNew CtorArg.jsNull

/-- Claim C1 (the failing input evaluated): for the chain built from the
corpus `[['a']]` with order 0, the serialized form parses back to exactly
the original model with the original order inferred, yet `fromJSON` throws
a `TypeError` — `new Chain(null, …)` destructures its `null` first
argument — so importing the export reconstructs no chain at all. -/
theorem fromJSON_toJSON_typeError :
    parseRecords (toJSONSer (mkChain [[JSVal.str "a"]] 0 false)) =
      Except.ok (some 0, (mkChain [[JSVal.str "a"]] 0 false).model) ∧
    fromJSONChain (toJSONSer (mkChain [[JSVal.str "a"]] 0 false)) =
      Except.error JSError.typeErrorNullOptions :=
  ⟨rfl, rfl⟩

theorem goRecords_ok (order : Int) (rest : List SerRecord)
    (h : ∀ r ∈ rest, (r.1.length : Int) = order + 1) :
    ∃ l, goRecords order rest = Except.ok l := by
  induction rest with
  | nil => exact ⟨[], rfl⟩
  | cons r rest ih =>
    obtain ⟨l, hl⟩ := ih (fun q hq => h q (List.mem_cons_of_mem _ hq))
    refine ⟨parseRecordEntry r :: l, ?_⟩
    unfold goRecords
    rw [if_neg (by push_neg; exact h r (List.mem_cons_self _ _))]
    rw [hl]

theorem goRecords_first_offender (n : Nat) (rest : List SerRecord)
    (off : SerRecord)
    (hfind : rest.find? (fun r => !(r.1.length == n)) = some off) :
    goRecords ((n : Int) - 1) rest =
      Except.error
        (JSError.inconsistentOrder ((n : Int) - 1) ((off.1.length : Int) - 1)
          off.1) := by
  induction rest with
  | nil => simp [List.find?] at hfind
  | cons r rest ih =>
    by_cases hp : r.1.length = n
    · rw [List.find?_cons_of_neg _ (by simp [hp])] at hfind
      unfold goRecords
      rw [if_neg (by push_neg; push_cast [hp]; ring)]
      rw [ih hfind]
    · rw [List.find?_cons_of_pos _ (by simp [hp])] at hfind
      have hoff : r = off := by exact Option.some_inj.mp hfind
      subst hoff
      unfold goRecords
      rw [if_pos (by intro hc; apply hp; have : ((n : Int) - 1) + 1 = (n : Int) := by ring
                     rw [this] at hc; exact_mod_cast hc)]

/-- Claim C8 (amended): on a non-empty record list, if every record has the
state length of the first record then the validation stage succeeds and
infers the order as that length minus one; and if some record differs,
the import fails fast at the first offending record with a consistency error
that names the offending state and carries the expected and actual state
lengths each diminished by one (the orders), as interpolated into its
message. -/
theorem fromJSON_validation_gate (r0 : SerRecord) (rest : List SerRecord) :
    ((∀ r ∈ r0 :: rest, r.1.length = r0.1.length) →
      ∃ m : Model, parseRecords (r0 :: rest) =
        Except.ok (some ((r0.1.length : Int) - 1), m)) ∧
    (∀ off : SerRecord,
      rest.find? (fun r => !(r.1.length == r0.1.length)) = some off →
      fromJSONChain (r0 :: rest) =
        Except.error
          (JSError.inconsistentOrder ((r0.1.length : Int) - 1)
            ((off.1.length : Int) - 1) off.1)) := by
  constructor
  · intro hall
    have hrest : ∀ r ∈ rest, (r.1.length : Int) = ((r0.1.length : Int) - 1) + 1 := by
      intro r hr
      have := hall r (List.mem_cons_of_mem _ hr)
      push_cast [this]
      ring
    obtain ⟨l, hl⟩ := goRecords_ok ((r0.1.length : Int) - 1) rest hrest
    refine ⟨modelOfEntries (parseRecordEntry r0 :: l), ?_⟩
    simp only [parseRecords]
    rw [hl]
  · intro off hfind
    have herr := goRecords_first_offender r0.1.length rest off hfind
    simp only [fromJSONChain, parseRecords]
    rw [herr]

/-- Witness for `fromJSON_validation_gate`: a consistent single-record input
(order inferred 0) and an inconsistent two-record input (error at the
offending state `['b','c']`). -/
theorem fromJSON_validation_gate_witness :
    (∃ m : Model, parseRecords [([JSVal.str "a"], ([], []))] =
      Except.ok (some ((([JSVal.str "a"] : List JSVal).length : Int) - 1), m)) ∧
    fromJSONChain
        [([JSVal.str "a"], ([], [])),
         ([JSVal.str "b", JSVal.str "c"], ([], []))] =
      Except.error
        (JSError.inconsistentOrder
          ((([JSVal.str "a"] : List JSVal).length : Int) - 1)
          ((([JSVal.str "b", JSVal.str "c"] : List JSVal).length : Int) - 1)
          [JSVal.str "b", JSVal.str "c"]) :=
  ⟨(fromJSON_validation_gate ([JSVal.str "a"], ([], [])) []).1
      (by intro r hr; fin_cases hr; rfl),
   (fromJSON_validation_gate ([JSVal.str "a"], ([], []))
        [([JSVal.str "b", JSVal.str "c"], ([], []))]).2
      ([JSVal.str "b", JSVal.str "c"], ([], [])) (by rfl)⟩

/-- Counterexample to claim C8 as stated: on the records
`[['a'], ['b','c']]` the consistency error carries the numbers 0 and 1 —
the state lengths each minus one (the orders) — and not the expected
length 1 versus the actual length 2 of the claim. -/
theorem fromJSON_error_reports_orders_counterexample :
    fromJSONChain
        [([JSVal.str "a"], ([], [])),
         ([JSVal.str "b", JSVal.str "c"], ([], []))] =
      Except.error
        (JSError.inconsistentOrder 0 1 [JSVal.str "b", JSVal.str "c"]) ∧
    ¬((0 : Int) = (([JSVal.str "a"] : List JSVal).length : Int) ∧
      (1 : Int) = (([JSVal.str "b", JSVal.str "c"] : List JSVal).length : Int)) :=
  ⟨rfl, by decide⟩
